import Mathlib

/-!
# Verification of the chunkito line-aligned chunking and aggregation pipeline

Shallow embedding of `src/main.rs` (and the identical chunking algorithm of
`src/lib.rs`) over byte lists. Bytes are `Nat` (so `10` is the line feed and
`59` the semicolon), buffers are `List Nat`, and the `f32` temperatures are
modelled as exact rationals `ℚ` (the source's `min`/`max`/comparison/addition
operations are the corresponding exact operations; floating-point rounding of
`sum` is outside the model, as the spec itself only constrains `sum` up to
rounding). Hash maps (`FxHashMap`) are modelled as association lists in
insertion order; fallible operations (a `parse().unwrap()` panic, the
`len() - 1` underflow) are modelled with `Option`.
-/

namespace Chunkito

/-- One byte of the input, as a natural number. -/
abbrev Byte := Nat

/-- Keys (`type Symbol = String;`) are kept as raw byte lists so that the
byte-wise lexicographic comparison of Rust `String::cmp` is modelled exactly. -/
abbrev Symbol := List Byte

/-- The per-key running statistic of `main.rs` (`struct Sensor`), with `f32`
modelled as `ℚ`. -/
structure Sensor where
  min : ℚ
  sum : ℚ
  cnt : Nat
  max : ℚ
deriving DecidableEq

/-- Constructor `Sensor::new(temp)`: seeded with the first observed value, count 1. -/
def Sensor.new (temp : ℚ) : Sensor :=
  { cnt := 1, min := temp, max := temp, sum := temp }

/-- Update `Sensor::add_temp(&mut self, temp)`: in-place update by one observation. -/
def Sensor.add_temp (s : Sensor) (temp : ℚ) : Sensor :=
  { min := if temp < s.min then temp else s.min
    max := if temp > s.max then temp else s.max
    sum := s.sum + temp
    cnt := s.cnt + 1 }

/-- Combine `Sensor::merge(&mut self, sensor)`: fold one per-chunk statistic into another. -/
def Sensor.merge (s other : Sensor) : Sensor :=
  { min := if s.min > other.min then other.min else s.min
    max := if s.max < other.max then other.max else s.max
    sum := s.sum + other.sum
    cnt := s.cnt + other.cnt }

/-- The map `FxHashMap<Symbol, Sensor>`, modelled as an association list in insertion
order (keys unique by construction of the update operation). -/
abbrev SMap := List (Symbol × Sensor)

/-- The map update idiom `map.entry(k).and_modify(f).or_insert(s0)` used by
both `process_chunk` and `merge_results`: modify the binding in place when the
key is present, append the initial sensor otherwise. -/
def entryUpd : SMap → Symbol → (Sensor → Sensor) → Sensor → SMap
  | [], k, _, s0 => [(k, s0)]
  | (k', s) :: rest, k, f, s0 =>
    if k' = k then (k', f s) :: rest else (k', s) :: entryUpd rest k f s0

/-- Map lookup (`map.get(k)`), for stating per-key properties. -/
def lookupS : SMap → Symbol → Option Sensor
  | [], _ => none
  | (k', s) :: rest, k => if k' = k then some s else lookupS rest k

/-- The keys of a summary map, in insertion order. -/
def keysS (m : SMap) : List Symbol := m.map Prod.fst

/-- Decimal digit bytes `'0'..'9'`. -/
def isDigit (b : Byte) : Bool := decide (48 ≤ b ∧ b ≤ 57)

/-- Value of a digit string, most significant first. -/
def digitsToNat (l : List Byte) : Nat := l.foldl (fun acc b => acc * 10 + (b - 48)) 0

/-- Model of the external `str::parse::<f32>` on the record grammar of the
spec (optional minus sign, decimal digits, optional fraction): the value is
returned as the exact rational it denotes, and byte strings outside this
grammar fail to parse. -/
def parseF (l : List Byte) : Option ℚ :=
  let sign : ℚ := match l with | 45 :: _ => -1 | _ => 1
  let body : List Byte := match l with | 45 :: rest => rest | _ => l
  let intPart := body.takeWhile (fun b => b ≠ 46)
  match body.dropWhile (fun b => b ≠ 46) with
  | [] =>
    if intPart.all isDigit ∧ intPart ≠ [] then
      some (sign * (digitsToNat intPart : ℚ))
    else none
  | _ :: frac =>
    if (intPart.all isDigit ∧ frac.all isDigit) ∧ (intPart ≠ [] ∨ frac ≠ []) then
      some (sign * ((digitsToNat intPart : ℚ) + (digitsToNat frac : ℚ) / (10 : ℚ) ^ frac.length))
    else none

/-- The scanning loop of `process_chunk`: `name` is the reusable name buffer,
`seg` the bytes `data[prev..curr]` accumulated since the last `;` or `\n`,
`sensors` the summary map so far. A value segment that fails to parse is the
source's `parse().unwrap()` panic, modelled as `none` (the panic aborts the
whole run through the thread join). -/
def pcLoop : List Byte → Symbol → List Byte → SMap → Option SMap
  | [], _, _, sensors => some sensors
  | b :: rest, name, seg, sensors =>
    if b = 59 then
      pcLoop rest seg [] sensors
    else if b = 10 then
      match parseF seg with
      | none => none
      | some temp =>
        pcLoop rest name [] (entryUpd sensors name (fun s => s.add_temp temp) (Sensor.new temp))
    else
      pcLoop rest name (seg ++ [b]) sensors

/-- Aggregator `process_chunk(data)`: single forward scan turning a chunk's bytes into a
per-key summary map; `none` models the fatal parse panic. -/
def process_chunk (data : List Byte) : Option SMap := pcLoop data [] [] []

/-- The inner fold of `merge_results`: fold one chunk's map into the
accumulator via `entry(name).and_modify(merge).or_insert(s)`. -/
def mergeInto (acc : SMap) (m : SMap) : SMap :=
  m.foldl (fun a p => entryUpd a p.1 (fun s => s.merge p.2) p.2) acc

/-- The complete fold of `merge_results` over all per-chunk maps (before
sorting). -/
def mergeFold (chunk_results : List SMap) : SMap := chunk_results.foldl mergeInto []

/-- Byte-wise lexicographic `≤` on keys: the order of Rust's `String::cmp`. -/
def lexLe : List Byte → List Byte → Bool
  | [], _ => true
  | _ :: _, [] => false
  | a :: as, b :: bs => decide (a < b) || (decide (a = b) && lexLe as bs)

/-- Sorted insertion used to model `sensors.sort_by(|(a,_),(b,_)| a.cmp(b))`. -/
def insertByKey (p : Symbol × Sensor) : List (Symbol × Sensor) → List (Symbol × Sensor)
  | [] => [p]
  | q :: rest => if lexLe p.1 q.1 then p :: q :: rest else q :: insertByKey p rest

/-- Insertion sort by key under `lexLe`; on the duplicate-free key lists
produced by `mergeFold` this is the unique sorted arrangement, hence a faithful
model of the source's stable `sort_by`. -/
def sortByKey : List (Symbol × Sensor) → List (Symbol × Sensor)
  | [] => []
  | p :: rest => insertByKey p (sortByKey rest)

/-- Merger `merge_results(chunk_results)`: fold all per-chunk maps into one, then
sort ascending by key. -/
def merge_results (chunk_results : List SMap) : List (Symbol × Sensor) :=
  sortByKey (mergeFold chunk_results)

/-- Decimal digits of a natural number, as bytes (fuel-driven, total). -/
def natDigitsAux : Nat → Nat → List Byte
  | 0, _ => []
  | fuel + 1, n => if n < 10 then [48 + n] else natDigitsAux fuel (n / 10) ++ [48 + n % 10]

/-- Decimal digits of a natural number, as bytes. -/
def natDigits (n : Nat) : List Byte := natDigitsAux (n + 1) n

/-- Digits of a rounded-to-tenths magnitude `n` (in tenths): integer part,
a dot, one fractional digit. -/
def tenthsDigits (n : Nat) : List Byte := natDigits (n / 10) ++ [46, 48 + n % 10]

/-- Model of the `{:.1}` format specifier: round to the nearest tenth and
print with exactly one fractional digit (exact on the tenth-valued data the
record grammar produces, where no rounding occurs). -/
def fmt1 (q : ℚ) : List Byte :=
  let s : ℤ := round (10 * q)
  if s < 0 then 45 :: tenthsDigits s.natAbs else tenthsDigits s.toNat

/-- One entry of the report: `name=min/avg/max`, each number in `{:.1}`
format, `avg = sum / cnt as f32`. -/
def renderEntry (p : Symbol × Sensor) : List Byte :=
  p.1 ++ 61 :: (fmt1 p.2.min ++ 47 :: (fmt1 (p.2.sum / (p.2.cnt : ℚ)) ++ 47 :: fmt1 p.2.max))

/-- Reporter `write_results(sensors, path)` as a function to the written bytes: a brace,
the entries joined by `", "` (an entry whose index is below
`last_index = sensors.len() - 1` is followed by the separator), a brace.
The subtraction `sensors.len() - 1` underflows `usize` when the sequence is
empty; that arithmetic overflow is a Rust program error (a panic under
overflow checks) and is modelled as `none`. -/
def write_results (sensors : List (Symbol × Sensor)) : Option (List Byte) :=
  if sensors.length = 0 then none
  else
    let last_index := sensors.length - 1
    some (123 :: ((sensors.enum.map
      (fun ip => renderEntry ip.2 ++ if ip.1 < last_index then [44, 32] else [])).flatten
      ++ [125]))

/-- A chunk `{start, end}` of `main.rs`/`lib.rs`; the `end` field is named
`stop` because `end` is a Lean keyword. Half-open range `[start, stop)`. -/
structure Chunk where
  start : Nat
  stop : Nat
deriving DecidableEq

/-- Model of `str::find('\n')` on the byte suffix: index of the first line
feed, if any. -/
def findLF : List Byte → Option Nat
  | [] => none
  | b :: rest => if b = 10 then some 0 else (findLF rest).map (· + 1)

/-- Model of `str::is_char_boundary(i)`: true at 0, at the end of the string,
and at any byte that is not a UTF-8 continuation byte (`b < 0x80 ∨ 0xC0 ≤ b`).
Slicing a `&str` at a non-boundary index panics. -/
def isCharBoundary (data : List Byte) (i : Nat) : Bool :=
  decide (i = 0) ||
    (match data[i]? with
     | some b => decide (b < 128 ∨ 192 ≤ b)
     | none => decide (i = data.length))

/-- The chunking loop of `chunk_it` (`main.rs`) / `chunk_file` (`lib.rs`):
at most `fuel` iterations (`for _ in 0..nb_chunks`), tentative end
`offset + chunk_size` clamped to `eof`, stop on `offset == end`, otherwise
scan `data[end..]` for the next line feed and extend to one byte past it, or
to `eof` when none remains. The scan slices the `&str` at the tentative end,
which panics when that index is not a char boundary; the panic is modelled as
`none`. -/
def chunkLoop (data : List Byte) (chunk_size : Nat) : Nat → Nat → Option (List Chunk)
  | 0, _ => some []
  | fuel + 1, offset =>
    let eof := data.length
    let end0 := offset + chunk_size
    let end1 := if end0 ≥ eof then eof else end0
    if offset = end1 then some []
    else if isCharBoundary data end1 then
      match findLF (data.drop end1) with
      | some lf =>
        (chunkLoop data chunk_size fuel (end1 + lf + 1)).map
          (fun cs => ⟨offset, end1 + lf + 1⟩ :: cs)
      | none => some [⟨offset, eof⟩]
    else none

/-- Chunker `chunk_it(path, nb_chunks)` on the mapped bytes: `chunk_size` is
the truncating division `eof / nb_chunks`; `none` models the char-boundary
panic of the `data[end..]` slice inside the loop. -/
def chunk_it (data : List Byte) (nb_chunks : Nat) : Option (List Chunk) :=
  chunkLoop data (data.length / nb_chunks) nb_chunks 0

/-- The bytes `data[chunk.start..chunk.end]` handed to one worker. -/
def sliceBytes (data : List Byte) (c : Chunk) : List Byte :=
  (data.drop c.start).take (c.stop - c.start)

/-- Sequence a list of options: `none` when any element is `none` (a worker
panic fails the `join`, aborting the whole run with no partial output). -/
def seqOption {α : Type} : List (Option α) → Option (List α)
  | [] => some []
  | o :: rest =>
    match o, seqOption rest with
    | some a, some l => some (a :: l)
    | _, _ => none

/-- The whole pipeline of `main`: chunk, aggregate each chunk, merge, render.
`none` models any fatal failure (a chunker panic, a parse panic in a worker,
or the empty-report underflow in `write_results`). -/
def pipeline (data : List Byte) (nb : Nat) : Option (List Byte) :=
  match chunk_it data nb with
  | none => none
  | some chunks =>
    match seqOption (chunks.map (fun c => process_chunk (sliceBytes data c))) with
    | none => none
    | some ms => write_results (merge_results ms)

/-- ASCII bytes of a string literal, for concrete test inputs and outputs. -/
def strBytes (s : String) : List Byte := s.data.map Char.toNat

/-! ## Specification-side vocabulary

The definitions below are *not* translations of source functions; they are the
vocabulary in which the claims about the source functions are stated: records,
well-formedness, byte ranges, chunk coverage, and the abstract value streams a
key receives. -/

/-- A record of the grammar `<key>;<value>\n`, as its key bytes and value
bytes. -/
abbrev RecKV := Symbol × List Byte

/-- The on-disk bytes of one record: key, semicolon, value, line feed. -/
def recBytes (r : RecKV) : List Byte := r.1 ++ 59 :: (r.2 ++ [10])

/-- The bytes of a line-aligned chunk holding the given records. -/
def chunkBytes (rs : List RecKV) : List Byte := (rs.map recBytes).flatten

/-- A byte string free of the two delimiter bytes `;` and `\n`. -/
def plainBytes (l : List Byte) : Prop := 59 ∉ l ∧ 10 ∉ l

/-- A well-formed record: delimiter-free key and value, and a value that
parses as a number. -/
def WFrec (r : RecKV) : Prop := plainBytes r.1 ∧ plainBytes r.2 ∧ (parseF r.2).isSome

instance (l : List Byte) : Decidable (plainBytes l) :=
  inferInstanceAs (Decidable (_ ∧ _))

instance (r : RecKV) : Decidable (WFrec r) :=
  inferInstanceAs (Decidable (_ ∧ _))

/-- The parsed value of a record's value bytes (0 as a don't-care default for
unparseable values; under `WFrec` the parse succeeds). -/
def parsedVal (v : List Byte) : ℚ := (parseF v).getD 0

/-- The effect of one record on the summary map, as performed by the `\n` arm
of `process_chunk`. -/
def stepRec (m : SMap) (r : RecKV) : SMap :=
  entryUpd m r.1 (fun s => s.add_temp (parsedVal r.2)) (Sensor.new (parsedVal r.2))

/-- Aggregation of a record list, record by record, from the empty map. -/
def aggRecs (rs : List RecKV) : SMap := rs.foldl stepRec []

/-- The values observed for key `k` in a record list, in order. -/
def valuesOf (k : Symbol) (rs : List RecKV) : List ℚ :=
  (rs.filter (fun r => decide (r.1 = k))).map (fun r => parsedVal r.2)

/-- The sensors bound to key `k` in a summary map, in order. -/
def sensorsOf (k : Symbol) (m : SMap) : List Sensor :=
  (m.filter (fun p => decide (p.1 = k))).map Prod.snd

/-- Replay a value stream into an optional sensor: the first value seeds a
sensor, later ones are added. -/
def applyVals : Option Sensor → List ℚ → Option Sensor
  | o, [] => o
  | none, v :: vs => applyVals (some (Sensor.new v)) vs
  | some s, v :: vs => applyVals (some (s.add_temp v)) vs

/-- Replay a sensor stream into an optional accumulator, as `merge_results`
does per key: the first sensor is inserted, later ones merged. -/
def applyMerges : Option Sensor → List Sensor → Option Sensor
  | o, [] => o
  | none, s :: ss => applyMerges (some s) ss
  | some t, s :: ss => applyMerges (some (t.merge s)) ss

/-- Combine two optional per-key accumulation results. -/
def combineOpt : Option Sensor → Option Sensor → Option Sensor
  | o, none => o
  | none, some s => some s
  | some t, some s => some (t.merge s)

/-- The chunk list tiles `[o, e)` exactly: each chunk starts where the
previous one ended, the first at `o`, the last ending at `e`. -/
def chunkCovers : Nat → List Chunk → Nat → Prop
  | o, [], e => o = e
  | o, c :: cs, e => c.start = o ∧ chunkCovers c.stop cs e

instance chunkCovers.dec : (o : Nat) → (cs : List Chunk) → (e : Nat) → Decidable (chunkCovers o cs e)
  | o, [], e => inferInstanceAs (Decidable (o = e))
  | o, c :: cs, e =>
    have : Decidable (chunkCovers c.stop cs e) := chunkCovers.dec _ _ _
    inferInstanceAs (Decidable (_ ∧ _))

/-- The value segments of a chunk's bytes: the byte runs that the scanner of
`process_chunk` hands to the number parser, i.e. for each line feed the bytes
since the most recent `;`, `\n`, or the start of the chunk (`seg` carries the
bytes accumulated so far). -/
def segmentsAux : List Byte → List Byte → List (List Byte)
  | [], _ => []
  | b :: rest, seg =>
    if b = 59 then segmentsAux rest []
    else if b = 10 then seg :: segmentsAux rest []
    else segmentsAux rest (seg ++ [b])

/-- The value segments of a chunk, from an empty scratch segment. -/
def valueSegments (data : List Byte) : List (List Byte) := segmentsAux data []

/-- The sensors (paired with the multiset of values they have absorbed) that
a run can produce: created by `Sensor::new` from a first observation, then
mutated by any sequence of `add_temp` observations and `merge`s. -/
inductive ReachSensor : Sensor → List ℚ → Prop
  | new (v : ℚ) : ReachSensor (Sensor.new v) [v]
  | add {s l} (v : ℚ) : ReachSensor s l → ReachSensor (s.add_temp v) (l ++ [v])
  | mrg {s l t m} : ReachSensor s l → ReachSensor t m → ReachSensor (s.merge t) (l ++ m)

/-! ## Sensor algebra -/

theorem ite_lt_left (a b : ℚ) : (if a < b then a else b) = min a b := by
  by_cases h : a < b
  · simp [h, min_eq_left h.le]
  · simp [h, min_eq_right (not_lt.mp h)]

theorem ite_gt_left (a b : ℚ) : (if a > b then a else b) = max a b := by
  by_cases h : b < a
  · simp [h, max_eq_left h.le]
  · simp [h, max_eq_right (not_lt.mp h)]

theorem ite_gt_right (a b : ℚ) : (if a > b then b else a) = min a b := by
  by_cases h : b < a
  · simp [h, min_eq_right h.le]
  · simp [h, min_eq_left (not_lt.mp h)]

theorem ite_lt_right (a b : ℚ) : (if a < b then b else a) = max a b := by
  by_cases h : a < b
  · simp [h, max_eq_right h.le]
  · simp [h, max_eq_left (not_lt.mp h)]

theorem add_temp_def (s : Sensor) (v : ℚ) :
    s.add_temp v = ⟨min v s.min, s.sum + v, s.cnt + 1, max v s.max⟩ := by
  simp [Sensor.add_temp, ite_lt_left, ite_gt_left]

theorem merge_def (s t : Sensor) :
    s.merge t = ⟨min s.min t.min, s.sum + t.sum, s.cnt + t.cnt, max s.max t.max⟩ := by
  simp [Sensor.merge, ite_gt_right, ite_lt_right]

theorem merge_comm (s t : Sensor) : s.merge t = t.merge s := by
  simp [merge_def, min_comm, max_comm, add_comm, Nat.add_comm]

theorem merge_assoc (s t u : Sensor) : (s.merge t).merge u = s.merge (t.merge u) := by
  simp [merge_def, min_assoc, max_assoc, add_assoc, Nat.add_assoc]

theorem merge_new (t : Sensor) (v : ℚ) : t.merge (Sensor.new v) = t.add_temp v := by
  simp [merge_def, add_temp_def, Sensor.new, min_comm, max_comm]

theorem merge_add_temp (t u : Sensor) (v : ℚ) :
    t.merge (u.add_temp v) = (t.merge u).add_temp v := by
  simp [merge_def, add_temp_def, min_left_comm, max_left_comm, add_assoc, Nat.add_assoc,
    add_left_comm]

theorem merge_foldl (t u : Sensor) (l : List ℚ) :
    t.merge (l.foldl Sensor.add_temp u) = l.foldl Sensor.add_temp (t.merge u) := by
  induction l generalizing u with
  | nil => rfl
  | cons v vs ih => simp only [List.foldl_cons, ih, merge_add_temp]

/-! ## The scanner on well-formed records -/

theorem pcLoop_plain (k : List Byte) (hk : plainBytes k) (l : List Byte) (name seg : List Byte)
    (m : SMap) : pcLoop (k ++ l) name seg m = pcLoop l name (seg ++ k) m := by
  induction k generalizing seg with
  | nil => simp
  | cons b k ih =>
    obtain ⟨h59, h10⟩ := hk
    have hb59 : b ≠ 59 := fun h => h59 (h ▸ List.mem_cons_self b k)
    have hb10 : b ≠ 10 := fun h => h10 (h ▸ List.mem_cons_self b k)
    have hk' : plainBytes k :=
      ⟨fun h => h59 (List.mem_cons_of_mem b h), fun h => h10 (List.mem_cons_of_mem b h)⟩
    have step : pcLoop ((b :: k) ++ l) name seg m = pcLoop (k ++ l) name (seg ++ [b]) m := by
      show pcLoop (b :: (k ++ l)) name seg m = _
      simp only [pcLoop, if_neg hb59, if_neg hb10]
    rw [step, ih hk' (seg ++ [b]), List.append_assoc, List.singleton_append]

theorem pcLoop_record (r : RecKV) (h : WFrec r) (l : List Byte) (name : List Byte) (m : SMap) :
    pcLoop (recBytes r ++ l) name [] m = pcLoop l r.1 [] (stepRec m r) := by
  obtain ⟨hkey, hval, hparse⟩ := h
  obtain ⟨q, hq⟩ := Option.isSome_iff_exists.mp hparse
  have h1 : recBytes r ++ l = r.1 ++ (59 :: (r.2 ++ (10 :: l))) := by
    simp [recBytes]
  rw [h1, pcLoop_plain r.1 hkey]
  show pcLoop (59 :: (r.2 ++ (10 :: l))) name ([] ++ r.1) m = _
  rw [List.nil_append]
  show pcLoop (r.2 ++ (10 :: l)) r.1 [] m = _
  rw [pcLoop_plain r.2 hval, List.nil_append]
  show pcLoop (10 :: l) r.1 r.2 m = _
  simp only [pcLoop, hq, stepRec, parsedVal, Option.getD_some]
  rfl

theorem pcLoop_chunk (rs : List RecKV) (h : ∀ r ∈ rs, WFrec r) (name : List Byte) (m : SMap) :
    pcLoop (chunkBytes rs) name [] m = some (rs.foldl stepRec m) := by
  induction rs generalizing name m with
  | nil => rfl
  | cons r rs ih =>
    have hr : WFrec r := h r (List.mem_cons_self r rs)
    have hrs : ∀ x ∈ rs, WFrec x := fun x hx => h x (List.mem_cons_of_mem r hx)
    show pcLoop (recBytes r ++ chunkBytes rs) name [] m = _
    rw [pcLoop_record r hr, ih hrs]
    rfl

theorem process_chunk_wf (rs : List RecKV) (h : ∀ r ∈ rs, WFrec r) :
    process_chunk (chunkBytes rs) = some (aggRecs rs) :=
  pcLoop_chunk rs h [] []

/-! ## Lookup characterizations -/

theorem lookup_entryUpd_self (m : SMap) (k : Symbol) (f : Sensor → Sensor) (s0 : Sensor) :
    lookupS (entryUpd m k f s0) k =
      some (match lookupS m k with | none => s0 | some s => f s) := by
  induction m with
  | nil => simp [entryUpd, lookupS]
  | cons p m ih =>
    by_cases h : p.1 = k
    · simp [entryUpd, lookupS, h]
    · simpa [entryUpd, lookupS, h] using ih

theorem lookup_entryUpd_ne (m : SMap) (k : Symbol) (f : Sensor → Sensor) (s0 : Sensor)
    (q : Symbol) (h : k ≠ q) : lookupS (entryUpd m k f s0) q = lookupS m q := by
  induction m with
  | nil => simp [entryUpd, lookupS, h]
  | cons p m ih =>
    by_cases hp : p.1 = k
    · simp [entryUpd, lookupS, hp, h]
    · simp only [entryUpd, if_neg hp, lookupS]
      by_cases hq : p.1 = q <;> simp [hq, ih]

theorem applyVals_some (s : Sensor) (l : List ℚ) :
    applyVals (some s) l = some (l.foldl Sensor.add_temp s) := by
  induction l generalizing s with
  | nil => rfl
  | cons v vs ih => simp [applyVals, ih]

theorem applyVals_none_cons (v : ℚ) (vs : List ℚ) :
    applyVals none (v :: vs) = some (vs.foldl Sensor.add_temp (Sensor.new v)) := by
  simp [applyVals, applyVals_some]

theorem applyMerges_some (t : Sensor) (l : List Sensor) :
    applyMerges (some t) l = some (l.foldl Sensor.merge t) := by
  induction l generalizing t with
  | nil => rfl
  | cons s ss ih => simp [applyMerges, ih]

theorem applyMerges_toList (o : Option Sensor) (s? : Option Sensor) :
    applyMerges o s?.toList = combineOpt o s? := by
  cases s? with
  | none => cases o <;> rfl
  | some s => cases o <;> simp [applyMerges, combineOpt]

theorem combine_applyVals (l1 l2 : List ℚ) :
    combineOpt (applyVals none l1) (applyVals none l2) = applyVals none (l1 ++ l2) := by
  cases l2 with
  | nil => cases l1 <;> simp [applyVals, combineOpt]
  | cons v vs =>
    cases l1 with
    | nil => simp [applyVals, applyVals_some, combineOpt]
    | cons w ws =>
      simp only [applyVals_none_cons, combineOpt, List.cons_append, List.foldl_append]
      rw [merge_foldl, merge_new]
      simp

/-- Aggregating a record list from map `m` gives, per key, the replay of the
key's value stream on top of the key's binding in `m`. -/
theorem lookup_foldRecs (rs : List RecKV) (m : SMap) (k : Symbol) :
    lookupS (rs.foldl stepRec m) k = applyVals (lookupS m k) (valuesOf k rs) := by
  induction rs generalizing m with
  | nil => simp [valuesOf, applyVals]
  | cons r rs ih =>
    rw [List.foldl_cons, ih]
    by_cases h : r.1 = k
    · have hv : valuesOf k (r :: rs) = parsedVal r.2 :: valuesOf k rs := by
        simp [valuesOf, h]
      rw [hv, stepRec, h, lookup_entryUpd_self]
      cases hm : lookupS m k <;> simp [applyVals]
    · have hv : valuesOf k (r :: rs) = valuesOf k rs := by
        simp [valuesOf, h]
      rw [hv, stepRec, lookup_entryUpd_ne _ _ _ _ _ h]

/-- Per-key content of the fold of one chunk map into an accumulator. -/
theorem lookup_mergeInto (m acc : SMap) (k : Symbol) :
    lookupS (mergeInto acc m) k = applyMerges (lookupS acc k) (sensorsOf k m) := by
  induction m generalizing acc with
  | nil => simp [mergeInto, sensorsOf, applyMerges]
  | cons p m ih =>
    show lookupS (List.foldl _ (entryUpd acc p.1 (fun s => s.merge p.2) p.2) m) k = _
    rw [show List.foldl (fun a q => entryUpd a q.1 (fun s => s.merge q.2) q.2)
      (entryUpd acc p.1 (fun s => s.merge p.2) p.2) m =
      mergeInto (entryUpd acc p.1 (fun s => s.merge p.2) p.2) m from rfl, ih]
    by_cases h : p.1 = k
    · have hs : sensorsOf k (p :: m) = p.2 :: sensorsOf k m := by simp [sensorsOf, h]
      rw [hs, h, lookup_entryUpd_self]
      cases hm : lookupS acc k <;> simp [applyMerges]
    · have hs : sensorsOf k (p :: m) = sensorsOf k m := by simp [sensorsOf, h]
      rw [hs, lookup_entryUpd_ne _ _ _ _ _ h]

/-- Per-key content of the complete `merge_results` fold. -/
theorem lookup_mergeFold (ms : List SMap) (k : Symbol) :
    lookupS (mergeFold ms) k =
      ms.foldl (fun o m => applyMerges o (sensorsOf k m)) none := by
  have main : ∀ (ms : List SMap) (acc : SMap),
      lookupS (ms.foldl mergeInto acc) k =
        ms.foldl (fun o m => applyMerges o (sensorsOf k m)) (lookupS acc k) := by
    intro ms
    induction ms with
    | nil => intro acc; rfl
    | cons m ms ih =>
      intro acc
      rw [List.foldl_cons, ih, List.foldl_cons, lookup_mergeInto]
  simpa [lookupS] using main ms []

/-! ## Key sets and duplicate freedom -/

theorem keysS_cons (p : Symbol × Sensor) (m : SMap) : keysS (p :: m) = p.1 :: keysS m := rfl

theorem entryUpd_cons_self (p : Symbol × Sensor) (m : SMap) (k : Symbol) (f : Sensor → Sensor)
    (s0 : Sensor) (h : p.1 = k) : entryUpd (p :: m) k f s0 = (p.1, f p.2) :: m := by
  show (if p.1 = k then _ else _) = _
  rw [if_pos h]

theorem entryUpd_cons_ne (p : Symbol × Sensor) (m : SMap) (k : Symbol) (f : Sensor → Sensor)
    (s0 : Sensor) (h : ¬p.1 = k) : entryUpd (p :: m) k f s0 = p :: entryUpd m k f s0 := by
  show (if p.1 = k then _ else _) = _
  rw [if_neg h]

theorem mem_keys_entryUpd (m : SMap) (k : Symbol) (f : Sensor → Sensor) (s0 : Sensor)
    (q : Symbol) : q ∈ keysS (entryUpd m k f s0) ↔ q ∈ keysS m ∨ q = k := by
  induction m with
  | nil => simp [entryUpd, keysS, eq_comm]
  | cons p m ih =>
    by_cases h : p.1 = k
    · rw [entryUpd_cons_self p m k f s0 h]
      simp only [keysS_cons, List.mem_cons]
      constructor
      · rintro (hq | hq)
        · exact Or.inl (Or.inl hq)
        · exact Or.inl (Or.inr hq)
      · rintro ((hq | hq) | hq)
        · exact Or.inl hq
        · exact Or.inr hq
        · exact Or.inl (hq.trans h.symm)
    · rw [entryUpd_cons_ne p m k f s0 h]
      simp only [keysS_cons, List.mem_cons]
      rw [ih]
      tauto

theorem nodup_keys_entryUpd (m : SMap) (k : Symbol) (f : Sensor → Sensor) (s0 : Sensor)
    (h : (keysS m).Nodup) : (keysS (entryUpd m k f s0)).Nodup := by
  induction m with
  | nil => simp [entryUpd, keysS]
  | cons p m ih =>
    rw [keysS_cons, List.nodup_cons] at h
    by_cases hp : p.1 = k
    · rw [entryUpd_cons_self p m k f s0 hp, keysS_cons, List.nodup_cons]
      exact h
    · rw [entryUpd_cons_ne p m k f s0 hp, keysS_cons, List.nodup_cons]
      refine ⟨?_, ih h.2⟩
      intro hmem
      rcases (mem_keys_entryUpd m k f s0 p.1).mp hmem with h' | h'
      · exact h.1 h'
      · exact hp h'

theorem nodup_keys_foldRecs (rs : List RecKV) (m : SMap) (h : (keysS m).Nodup) :
    (keysS (rs.foldl stepRec m)).Nodup := by
  induction rs generalizing m with
  | nil => exact h
  | cons r rs ih => exact ih _ (nodup_keys_entryUpd _ _ _ _ h)

theorem nodup_keys_aggRecs (rs : List RecKV) : (keysS (aggRecs rs)).Nodup :=
  nodup_keys_foldRecs rs [] (by simp [keysS])

theorem nodup_keys_mergeInto (acc m : SMap) (h : (keysS acc).Nodup) :
    (keysS (mergeInto acc m)).Nodup := by
  induction m generalizing acc with
  | nil => exact h
  | cons p m ih => exact ih _ (nodup_keys_entryUpd _ _ _ _ h)

theorem nodup_keys_mergeFold (ms : List SMap) : (keysS (mergeFold ms)).Nodup := by
  have main : ∀ (ms : List SMap) (acc : SMap), (keysS acc).Nodup →
      (keysS (ms.foldl mergeInto acc)).Nodup := by
    intro ms
    induction ms with
    | nil => exact fun acc h => h
    | cons m ms ih => exact fun acc h => ih _ (nodup_keys_mergeInto _ _ h)
  exact main ms [] (by simp [keysS])

theorem lookup_eq_none_iff (m : SMap) (k : Symbol) :
    lookupS m k = none ↔ k ∉ keysS m := by
  induction m with
  | nil => simp [lookupS, keysS]
  | cons p m ih =>
    rw [keysS_cons]
    by_cases h : p.1 = k
    · subst h
      simp [lookupS]
    · have hk : ¬k = p.1 := fun hh => h hh.symm
      simp [lookupS, h, hk, ih]

theorem lookup_isSome_iff (m : SMap) (k : Symbol) :
    (lookupS m k).isSome = true ↔ k ∈ keysS m := by
  cases hl : lookupS m k with
  | none => simp [(lookup_eq_none_iff m k).mp hl]
  | some s =>
    have hmem : k ∈ keysS m := by
      by_contra hno
      have h0 := (lookup_eq_none_iff m k).mpr hno
      rw [hl] at h0
      exact Option.noConfusion h0
    simp [hmem]

/-- On a duplicate-free map the multiset of sensors bound to `k` is exactly
the optional lookup result. -/
theorem sensorsOf_eq_lookup (m : SMap) (h : (keysS m).Nodup) (k : Symbol) :
    sensorsOf k m = (lookupS m k).toList := by
  induction m with
  | nil => simp [sensorsOf, lookupS]
  | cons p m ih =>
    rw [keysS_cons, List.nodup_cons] at h
    by_cases hp : p.1 = k
    · have hnone : lookupS m k = none := (lookup_eq_none_iff m k).mpr (hp ▸ h.1)
      have hemp : sensorsOf k m = [] := by rw [ih h.2, hnone]; rfl
      have hstep : sensorsOf k (p :: m) = p.2 :: sensorsOf k m := by
        simp [sensorsOf, List.filter_cons, hp]
      rw [hstep, hemp]
      simp [lookupS, hp]
    · have hstep : sensorsOf k (p :: m) = sensorsOf k m := by
        simp [sensorsOf, List.filter_cons, hp]
      rw [hstep, ih h.2]
      simp [lookupS, hp]

/-! ## Partition invariance -/

theorem valuesOf_append (k : Symbol) (a b : List RecKV) :
    valuesOf k (a ++ b) = valuesOf k a ++ valuesOf k b := by
  simp [valuesOf, List.filter_append]

theorem valuesOf_flatten (k : Symbol) (parts : List (List RecKV)) :
    valuesOf k parts.flatten = (parts.map (valuesOf k)).flatten := by
  induction parts with
  | nil => rfl
  | cons p ps ih =>
    show valuesOf k (p ++ ps.flatten) = _
    rw [valuesOf_append, ih]
    rfl

/-- Merging the per-chunk aggregation maps of the parts replays, per key, the
concatenation of the parts' value streams. -/
theorem lookup_mergeFold_parts (parts : List (List RecKV)) (k : Symbol) :
    lookupS (mergeFold (parts.map aggRecs)) k = applyVals none (valuesOf k parts.flatten) := by
  have main : ∀ (ps : List (List RecKV)) (l0 : List ℚ),
      List.foldl (fun o m => applyMerges o (sensorsOf k m)) (applyVals none l0)
        (ps.map aggRecs) = applyVals none (l0 ++ (ps.map (valuesOf k)).flatten) := by
    intro ps
    induction ps with
    | nil => intro l0; simp
    | cons p ps ih =>
      intro l0
      rw [List.map_cons, List.foldl_cons,
        sensorsOf_eq_lookup _ (nodup_keys_aggRecs p) k,
        show lookupS (aggRecs p) k = applyVals (lookupS ([] : SMap) k) (valuesOf k p) from
          lookup_foldRecs p [] k,
        show lookupS ([] : SMap) k = none from rfl,
        applyMerges_toList, combine_applyVals, ih]
      simp [List.append_assoc]
  rw [lookup_mergeFold, valuesOf_flatten]
  exact main parts []

/-- Aggregating the whole record list in one chunk replays, per key, the same
value stream. -/
theorem lookup_aggRecs (rs : List RecKV) (k : Symbol) :
    lookupS (aggRecs rs) k = applyVals none (valuesOf k rs) :=
  lookup_foldRecs rs [] k

/-! ## Fold-order independence machinery -/

theorem combineOpt_none_left (x : Option Sensor) : combineOpt none x = x := by
  cases x <;> rfl

theorem combineOpt_comm (a b : Option Sensor) : combineOpt a b = combineOpt b a := by
  cases a <;> cases b <;> simp [combineOpt, merge_comm]

theorem combineOpt_assoc (a b c : Option Sensor) :
    combineOpt (combineOpt a b) c = combineOpt a (combineOpt b c) := by
  cases a <;> cases b <;> cases c <;> simp [combineOpt, merge_assoc]

theorem merge_foldl_merge (t u : Sensor) (l : List Sensor) :
    t.merge (l.foldl Sensor.merge u) = l.foldl Sensor.merge (t.merge u) := by
  induction l generalizing u with
  | nil => rfl
  | cons s ss ih => simp only [List.foldl_cons, ih, merge_assoc]

theorem applyMerges_combine (o : Option Sensor) (l : List Sensor) :
    applyMerges o l = combineOpt o (applyMerges none l) := by
  cases l with
  | nil => cases o <;> rfl
  | cons s ss =>
    cases o with
    | none => rw [combineOpt_none_left]
    | some t =>
      show applyMerges (some (t.merge s)) ss = combineOpt (some t) (applyMerges (some s) ss)
      simp [applyMerges_some, combineOpt, merge_foldl_merge]

theorem applyMerges_right_comm (o : Option Sensor) (l1 l2 : List Sensor) :
    applyMerges (applyMerges o l1) l2 = applyMerges (applyMerges o l2) l1 := by
  rw [applyMerges_combine o l1]
  rw [applyMerges_combine (combineOpt o (applyMerges none l1)) l2]
  rw [applyMerges_combine o l2]
  rw [applyMerges_combine (combineOpt o (applyMerges none l2)) l1]
  rw [combineOpt_assoc, combineOpt_assoc]
  rw [combineOpt_comm (applyMerges none l1) (applyMerges none l2)]

theorem foldl_mergeStep_perm (k : Symbol) {ms1 ms2 : List SMap} (hp : ms1.Perm ms2) :
    ∀ o, ms1.foldl (fun o m => applyMerges o (sensorsOf k m)) o =
      ms2.foldl (fun o m => applyMerges o (sensorsOf k m)) o := by
  induction hp with
  | nil => intro o; rfl
  | cons x _ ih => intro o; simp only [List.foldl_cons]; exact ih _
  | swap x y l =>
    intro o
    simp only [List.foldl_cons]
    rw [applyMerges_right_comm]
  | trans _ _ ih1 ih2 => intro o; rw [ih1, ih2]

/-! ## The scanner's failure condition -/

theorem pcLoop_none_iff (d : List Byte) :
    ∀ seg name m, pcLoop d name seg m = none ↔ ∃ s ∈ segmentsAux d seg, parseF s = none := by
  induction d with
  | nil => simp [pcLoop, segmentsAux]
  | cons b rest ih =>
    intro seg name m
    by_cases h59 : b = 59
    · simp only [pcLoop, if_pos h59, segmentsAux]
      exact ih [] seg m
    · by_cases h10 : b = 10
      · cases hp : parseF seg with
        | none =>
          simp only [pcLoop, if_neg h59, if_pos h10, hp, segmentsAux]
          exact iff_of_true trivial ⟨seg, by simp, hp⟩
        | some v =>
          simp only [pcLoop, if_neg h59, if_pos h10, hp, segmentsAux]
          rw [ih]
          constructor
          · rintro ⟨s, hs, hps⟩
            exact ⟨s, List.mem_cons_of_mem _ hs, hps⟩
          · rintro ⟨s, hs, hps⟩
            rcases List.mem_cons.mp hs with h | h
            · rw [h] at hps
              rw [hps] at hp
              exact Option.noConfusion hp
            · exact ⟨s, h, hps⟩
      · simp only [pcLoop, if_neg h59, if_neg h10, segmentsAux]
        exact ih (seg ++ [b]) name m

/-! ## Chunker lemmas -/

theorem findLF_spec {l : List Byte} {i : Nat} (h : findLF l = some i) :
    i < l.length ∧ l[i]? = some 10 := by
  induction l generalizing i with
  | nil => exact Option.noConfusion h
  | cons b rest ih =>
    by_cases hb : b = 10
    · rw [findLF, if_pos hb] at h
      cases h
      simp [hb]
    · rw [findLF, if_neg hb] at h
      rcases Option.map_eq_some'.mp h with ⟨j, hj, hij⟩
      rcases ih hj with ⟨hlt, hget⟩
      subst hij
      refine ⟨by simpa using Nat.succ_lt_succ hlt, ?_⟩
      simpa using hget

theorem findLF_none_of_empty : findLF ([] : List Byte) = none := rfl

theorem isCharBoundary_length (data : List Byte) :
    isCharBoundary data data.length = true := by
  rw [isCharBoundary, List.getElem?_eq_none (Nat.le_refl data.length)]
  simp

/-- Unfolding of one step of the chunking loop. -/
theorem chunkLoop_succ (data : List Byte) (cs fuel offset : Nat) :
    chunkLoop data cs (fuel + 1) offset =
      (let eof := data.length
       let end0 := offset + cs
       let end1 := if end0 ≥ eof then eof else end0
       if offset = end1 then some []
       else if isCharBoundary data end1 then
         match findLF (data.drop end1) with
         | some lf =>
           (chunkLoop data cs fuel (end1 + lf + 1)).map
             (fun l => ⟨offset, end1 + lf + 1⟩ :: l)
         | none => some [⟨offset, data.length⟩]
       else none) := rfl

theorem chunkCovers_nil (o e : Nat) : chunkCovers o [] e ↔ o = e := Iff.rfl

theorem chunkCovers_cons (o e : Nat) (c : Chunk) (cs : List Chunk) :
    chunkCovers o (c :: cs) e ↔ c.start = o ∧ chunkCovers c.stop cs e := Iff.rfl

theorem chunkLoop_covers (data : List Byte) (cs : Nat) (hcs : 1 ≤ cs) :
    ∀ fuel offset l, offset ≤ data.length → data.length ≤ offset + fuel * (cs + 1) →
      chunkLoop data cs fuel offset = some l → chunkCovers offset l data.length := by
  intro fuel
  induction fuel with
  | zero =>
    intro offset l h1 h2 h3
    have hoe : offset = data.length := le_antisymm h1 (by simpa using h2)
    injection h3 with h
    subst h
    exact hoe
  | succ fuel ih =>
    intro offset l h1 h2 h3
    rw [chunkLoop_succ] at h3
    by_cases hclamp : offset + cs ≥ data.length
    · simp only [if_pos hclamp] at h3
      by_cases hoe : offset = data.length
      · rw [if_pos hoe] at h3
        injection h3 with h
        subst h
        exact hoe
      · rw [if_neg hoe, if_pos (isCharBoundary_length data), List.drop_length,
          findLF_none_of_empty] at h3
        injection h3 with h
        subst h
        exact ⟨rfl, rfl⟩
    · simp only [if_neg hclamp] at h3
      have hne : ¬offset = offset + cs := by omega
      rw [if_neg hne] at h3
      by_cases hb : isCharBoundary data (offset + cs) = true
      · rw [if_pos hb] at h3
        cases hfind : findLF (data.drop (offset + cs)) with
        | some lf =>
          rw [hfind] at h3
          rcases Option.map_eq_some'.mp h3 with ⟨l', hl', rfl⟩
          rcases findLF_spec hfind with ⟨hlt, _⟩
          rw [List.length_drop] at hlt
          rw [Nat.succ_mul fuel (cs + 1)] at h2
          exact ⟨rfl, ih (offset + cs + lf + 1) l' (by omega) (by omega) hl'⟩
        | none =>
          rw [hfind] at h3
          injection h3 with h
          subst h
          exact ⟨rfl, rfl⟩
      · rw [if_neg hb] at h3
        exact Option.noConfusion h3

theorem chunkLoop_pos (data : List Byte) (cs : Nat) :
    ∀ fuel offset l, offset ≤ data.length → chunkLoop data cs fuel offset = some l →
      ∀ c ∈ l, c.start < c.stop := by
  intro fuel
  induction fuel with
  | zero =>
    intro offset l _ h3 c hc
    injection h3 with h
    subst h
    exact absurd hc (List.not_mem_nil c)
  | succ fuel ih =>
    intro offset l h1 h3 c hc
    rw [chunkLoop_succ] at h3
    by_cases hclamp : offset + cs ≥ data.length
    · simp only [if_pos hclamp] at h3
      by_cases hoe : offset = data.length
      · rw [if_pos hoe] at h3
        injection h3 with h
        subst h
        exact absurd hc (List.not_mem_nil c)
      · rw [if_neg hoe, if_pos (isCharBoundary_length data), List.drop_length,
          findLF_none_of_empty] at h3
        injection h3 with h
        subst h
        rcases List.mem_singleton.mp hc with rfl
        show offset < data.length
        omega
    · simp only [if_neg hclamp] at h3
      by_cases hne : offset = offset + cs
      · rw [if_pos hne] at h3
        injection h3 with h
        subst h
        exact absurd hc (List.not_mem_nil c)
      · rw [if_neg hne] at h3
        by_cases hb : isCharBoundary data (offset + cs) = true
        · rw [if_pos hb] at h3
          cases hfind : findLF (data.drop (offset + cs)) with
          | some lf =>
            rw [hfind] at h3
            rcases Option.map_eq_some'.mp h3 with ⟨l', hl', rfl⟩
            rcases findLF_spec hfind with ⟨hlt, _⟩
            rw [List.length_drop] at hlt
            rcases List.mem_cons.mp hc with rfl | hmem
            · show offset < offset + cs + lf + 1
              omega
            · exact ih (offset + cs + lf + 1) l' (by omega) hl' c hmem
          | none =>
            rw [hfind] at h3
            injection h3 with h
            subst h
            rcases List.mem_singleton.mp hc with rfl
            show offset < data.length
            omega
        · rw [if_neg hb] at h3
          exact Option.noConfusion h3

theorem chunkLoop_lf (data : List Byte) (cs : Nat) :
    ∀ fuel offset l, chunkLoop data cs fuel offset = some l →
      ∀ c ∈ l, c.stop = data.length ∨ data[c.stop - 1]? = some 10 := by
  intro fuel
  induction fuel with
  | zero =>
    intro offset l h3 c hc
    injection h3 with h
    subst h
    exact absurd hc (List.not_mem_nil c)
  | succ fuel ih =>
    intro offset l h3 c hc
    rw [chunkLoop_succ] at h3
    by_cases hclamp : offset + cs ≥ data.length
    · simp only [if_pos hclamp] at h3
      by_cases hoe : offset = data.length
      · rw [if_pos hoe] at h3
        injection h3 with h
        subst h
        exact absurd hc (List.not_mem_nil c)
      · rw [if_neg hoe, if_pos (isCharBoundary_length data), List.drop_length,
          findLF_none_of_empty] at h3
        injection h3 with h
        subst h
        rcases List.mem_singleton.mp hc with rfl
        exact Or.inl rfl
    · simp only [if_neg hclamp] at h3
      by_cases hne : offset = offset + cs
      · rw [if_pos hne] at h3
        injection h3 with h
        subst h
        exact absurd hc (List.not_mem_nil c)
      · rw [if_neg hne] at h3
        by_cases hb : isCharBoundary data (offset + cs) = true
        · rw [if_pos hb] at h3
          cases hfind : findLF (data.drop (offset + cs)) with
          | some lf =>
            rw [hfind] at h3
            rcases Option.map_eq_some'.mp h3 with ⟨l', hl', rfl⟩
            rcases findLF_spec hfind with ⟨hlt, hget⟩
            rcases List.mem_cons.mp hc with rfl | hmem
            · right
              show data[offset + cs + lf + 1 - 1]? = some 10
              rw [List.getElem?_drop] at hget
              simpa using hget
            · exact ih (offset + cs + lf + 1) l' hl' c hmem
          | none =>
            rw [hfind] at h3
            injection h3 with h
            subst h
            rcases List.mem_singleton.mp hc with rfl
            exact Or.inl rfl
        · rw [if_neg hb] at h3
          exact Option.noConfusion h3

theorem chunk_it_covers (data : List Byte) (nb : Nat) (cs : List Chunk) (h1 : 1 ≤ nb)
    (h2 : nb ≤ data.length ∨ data.length = 0) (h3 : chunk_it data nb = some cs) :
    chunkCovers 0 cs data.length := by
  rcases h2 with h2 | h2
  · have hcs1 : 1 ≤ data.length / nb := (Nat.one_le_div_iff (by omega)).mpr h2
    refine chunkLoop_covers data _ hcs1 nb 0 cs (Nat.zero_le _) ?_ h3
    have hdm := Nat.div_add_mod data.length nb
    have hmlt : data.length % nb < nb := Nat.mod_lt _ (by omega)
    rw [Nat.zero_add, Nat.mul_succ]
    omega
  · cases nb with
    | zero => omega
    | succ m =>
      rw [chunk_it, chunkLoop_succ] at h3
      simp only [h2, Nat.zero_div, Nat.add_zero, ge_iff_le, Nat.le_refl, if_true, if_pos rfl] at h3
      injection h3 with h
      subst h
      simp [chunkCovers_nil, h2]

theorem chunk_it_pos (data : List Byte) (nb : Nat) (cs : List Chunk)
    (h3 : chunk_it data nb = some cs) : ∀ c ∈ cs, c.start < c.stop :=
  chunkLoop_pos data _ nb 0 cs (Nat.zero_le _) h3

theorem chunk_it_lf (data : List Byte) (nb : Nat) (cs : List Chunk)
    (h3 : chunk_it data nb = some cs) :
    ∀ c ∈ cs, c.stop = data.length ∨ data[c.stop - 1]? = some 10 :=
  chunkLoop_lf data _ nb 0 cs h3

/-! ## Claims -/

/-- C1 (amended): for every buffer and every `targetCount` with
`1 ≤ targetCount ≤ eof` (or an empty buffer), whenever `chunk_it` returns a
chunk sequence at all — it panics when a tentative chunk end falls on a UTF-8
continuation byte, so that the `data[end..]` slice is not at a char
boundary — that sequence tiles `[0, eof)` exactly (contiguous, no overlap, no
gap), every chunk is nonempty, and every chunk either ends at `eof` (possible
only for the last one, by the tiling) or ends exactly one byte after a
line-feed byte. The original claim's range "every targetCount ≥ 1" fails: for
`0 < eof < targetCount` the division `eof / targetCount` is zero and the loop
stops before emitting any chunk; and even within the corrected range the
char-boundary panic can abort the run before any chunk is produced. -/
theorem claim1_chunker_coverage (data : List Byte) (nb : Nat) (cs : List Chunk)
    (h1 : 1 ≤ nb) (h2 : nb ≤ data.length ∨ data.length = 0)
    (h3 : chunk_it data nb = some cs) :
    chunkCovers 0 cs data.length ∧
    (∀ c ∈ cs, c.start < c.stop) ∧
    (∀ c ∈ cs, c.stop = data.length ∨ data[c.stop - 1]? = some 10) :=
  ⟨chunk_it_covers data nb cs h1 h2 h3, chunk_it_pos data nb cs h3, chunk_it_lf data nb cs h3⟩

/-- C1 counterexample: two failures of the original claim. The 5-byte buffer
`"A;5.0"` with `targetCount = 12 ≥ 1` yields an empty chunk list, covering
nothing of `[0, 5)`; and the 5-byte valid-UTF-8 buffer `"ü;1\n"` (bytes
`C3 BC 3B 31 0A`) with `targetCount = 5` panics — the tentative end 1 lands
on the continuation byte `BC` — so no chunk sequence is produced at all. -/
theorem claim1_counterexample :
    chunk_it [65, 59, 53, 46, 48] 12 = some [] ∧
    ¬chunkCovers 0 [] 5 ∧
    chunk_it [195, 188, 59, 49, 10] 5 = none :=
  ⟨by decide, by decide, by decide⟩

/-- C1 witness at buffer `"A;1.0\nB;2.0\n"` (12 bytes) and `targetCount = 2`,
where the chunker succeeds with the single chunk `[0, 12)`. -/
theorem claim1_witness :
    1 ≤ 2 ∧ (2 ≤ [65, 59, 49, 46, 48, 10, 66, 59, 50, 46, 48, 10].length ∨
      [65, 59, 49, 46, 48, 10, 66, 59, 50, 46, 48, 10].length = 0) ∧
    chunk_it [65, 59, 49, 46, 48, 10, 66, 59, 50, 46, 48, 10] 2 = some [⟨0, 12⟩] ∧
    chunkCovers 0 [⟨0, 12⟩] [65, 59, 49, 46, 48, 10, 66, 59, 50, 46, 48, 10].length :=
  ⟨by decide, by decide, by decide,
    (claim1_chunker_coverage [65, 59, 49, 46, 48, 10, 66, 59, 50, 46, 48, 10] 2 [⟨0, 12⟩]
      (by decide) (by decide) (by decide)).1⟩

/-- C8: no chunk sequence the chunker ever returns contains an empty chunk
(`start == end`) — in particular not when more chunks are requested than the
buffer has lines (a panicking run returns no chunks at all) — and fewer
chunks than requested may be produced (witnessed by the 11-byte two-line
buffer `"A;5.0\nB;1.0"` at `targetCount = 12`, which produces fewer than 12
chunks). -/
theorem claim8_no_empty_chunks :
    (∀ (data : List Byte) (nb : Nat) (cs : List Chunk), chunk_it data nb = some cs →
      ∀ c ∈ cs, c.start < c.stop) ∧
    ((chunk_it [65, 59, 53, 46, 48, 10, 66, 59, 49, 46, 48] 12).getD []).length < 12 :=
  ⟨fun data nb cs h3 => chunk_it_pos data nb cs h3, by decide⟩

/-- C8 witness: the single chunk of `"A;1.0\n"` at `targetCount = 1` is
nonempty. -/
theorem claim8_witness :
    chunk_it [65, 59, 49, 46, 48, 10] 1 = some [⟨0, 6⟩] ∧ (0 : Nat) < 6 :=
  ⟨by decide, claim8_no_empty_chunks.1 [65, 59, 49, 46, 48, 10] 1 [⟨0, 6⟩] (by decide)
    ⟨0, 6⟩ (by decide)⟩

/-- C4: for a well-formed buffer split into any line-aligned parts, the
aggregation of every part succeeds, aggregating the whole buffer as one chunk
succeeds, and the `merge_results` fold of the per-part maps agrees with the
whole-buffer map on every key (in this exact-arithmetic model the sensors are
equal outright, so `min`, `max` and `count` — and here even `sum` — match). -/
theorem claim4_partition_invariance (parts : List (List RecKV))
    (h : ∀ p ∈ parts, ∀ r ∈ p, WFrec r) :
    process_chunk (chunkBytes parts.flatten) = some (aggRecs parts.flatten) ∧
    parts.map (fun p => process_chunk (chunkBytes p)) =
      parts.map (fun p => some (aggRecs p)) ∧
    ∀ k, lookupS (mergeFold (parts.map aggRecs)) k = lookupS (aggRecs parts.flatten) k := by
  refine ⟨?_, ?_, ?_⟩
  · apply process_chunk_wf
    intro r hr
    rcases List.mem_flatten.mp hr with ⟨p, hp, hrp⟩
    exact h p hp r hrp
  · apply List.map_congr_left
    intro p hp
    exact process_chunk_wf p (h p hp)
  · intro k
    rw [lookup_mergeFold_parts, lookup_aggRecs]

/-- C4 witness: the two-part split `["A;1.0\n"], ["A;3.0\n"]`. -/
theorem claim4_witness :
    (∀ p ∈ ([[([65], [49, 46, 48])], [([65], [51, 46, 48])]] : List (List RecKV)),
      ∀ r ∈ p, WFrec r) ∧
    lookupS (mergeFold (([[([65], [49, 46, 48])], [([65], [51, 46, 48])]] :
        List (List RecKV)).map aggRecs)) [65] =
      lookupS (aggRecs ([[([65], [49, 46, 48])], [([65], [51, 46, 48])]] :
        List (List RecKV)).flatten) [65] :=
  ⟨by decide,
    (claim4_partition_invariance [[([65], [49, 46, 48])], [([65], [51, 46, 48])]]
      (by decide)).2.2 [65]⟩

/-- C5: the per-key combine `Sensor::merge` is commutative and associative,
and consequently the `merge_results` fold result is, per key, invariant under
any permutation of the per-chunk maps (in this exact-arithmetic model the
whole sensor is equal, covering the claim's `min`/`max`/`count` and leaving
floating-point `sum` rounding outside the model as the claim demands). -/
theorem claim5_merge_commutative_associative :
    (∀ s t : Sensor, s.merge t = t.merge s) ∧
    (∀ s t u : Sensor, (s.merge t).merge u = s.merge (t.merge u)) ∧
    (∀ ms1 ms2 : List SMap, ms1.Perm ms2 →
      ∀ k, lookupS (mergeFold ms1) k = lookupS (mergeFold ms2) k) := by
  refine ⟨merge_comm, merge_assoc, ?_⟩
  intro ms1 ms2 hp k
  rw [lookup_mergeFold, lookup_mergeFold]
  exact foldl_mergeStep_perm k hp none

/-- C5 witness: swapping two singleton chunk maps leaves the per-key fold
unchanged. -/
theorem claim5_witness :
    ([[([65], Sensor.new 1)], [([66], Sensor.new 2)]] : List SMap).Perm
      [[([66], Sensor.new 2)], [([65], Sensor.new 1)]] ∧
    lookupS (mergeFold [[([65], Sensor.new 1)], [([66], Sensor.new 2)]]) [65] =
      lookupS (mergeFold [[([66], Sensor.new 2)], [([65], Sensor.new 1)]]) [65] :=
  ⟨List.Perm.swap _ _ [], claim5_merge_commutative_associative.2.2 _ _
    (List.Perm.swap _ _ []) [65]⟩

/-- C6: a sensor reachable from `Sensor::new` by `add_temp` observations and
`merge`s always has `count ≥ 1`, `min ≤ max`, and `sum` equal to the exact sum
of all observed values; and the map update operation used throughout never
deletes a key. -/
theorem claim6_sensor_invariants :
    (∀ (s : Sensor) (l : List ℚ), ReachSensor s l →
      1 ≤ s.cnt ∧ s.min ≤ s.max ∧ s.sum = l.sum) ∧
    (∀ (m : SMap) (k : Symbol) (f : Sensor → Sensor) (s0 : Sensor) (q : Symbol),
      q ∈ keysS m → q ∈ keysS (entryUpd m k f s0)) := by
  constructor
  · intro s l h
    induction h with
    | new v => simp [Sensor.new]
    | @add s l v _ ih =>
      rcases ih with ⟨ih1, ih2, ih3⟩
      rw [add_temp_def]
      refine ⟨?_, ?_, ?_⟩
      · show 1 ≤ s.cnt + 1
        omega
      · show min v s.min ≤ max v s.max
        exact le_trans (min_le_right _ _) (le_trans ih2 (le_max_right _ _))
      · show s.sum + v = (l ++ [v]).sum
        rw [List.sum_append, ih3]
        simp
    | @mrg s l t m _ _ ih1 ih2 =>
      rcases ih1 with ⟨ia, ib, ic⟩
      rcases ih2 with ⟨ja, jb, jc⟩
      rw [merge_def]
      refine ⟨?_, ?_, ?_⟩
      · show 1 ≤ s.cnt + t.cnt
        omega
      · show min s.min t.min ≤ max s.max t.max
        exact le_trans (min_le_left _ _) (le_trans ib (le_max_left _ _))
      · show s.sum + t.sum = (l ++ m).sum
        rw [List.sum_append, ic, jc]
  · intro m k f s0 q h
    exact (mem_keys_entryUpd m k f s0 q).mpr (Or.inl h)

/-- C6 witness at the sensor seeded from the single observation `1`, and at a
concrete map update. -/
theorem claim6_witness :
    (1 ≤ (Sensor.new 1).cnt ∧ (Sensor.new 1).min ≤ (Sensor.new 1).max ∧
      (Sensor.new 1).sum = [(1 : ℚ)].sum) ∧
    [65] ∈ keysS (entryUpd [([65], Sensor.new 1)] [66] id (Sensor.new 2)) :=
  ⟨claim6_sensor_invariants.1 _ _ (ReachSensor.new 1),
   claim6_sensor_invariants.2 [([65], Sensor.new 1)] [66] id (Sensor.new 2) [65] (by decide)⟩

/-- C9: the chunk aggregator fails (the `parse().unwrap()` panic that aborts
the whole run, with no record skipped and no retry) exactly when some value
segment of its input — the bytes between a `;`/`\n` boundary and the next
`\n` — does not parse as a number. -/
theorem claim9_parse_failure_iff (data : List Byte) :
    process_chunk data = none ↔ ∃ s ∈ valueSegments data, parseF s = none :=
  pcLoop_none_iff data [] [] []

/-! ## Sorting by key -/

theorem lexLe_total (a b : List Byte) : lexLe a b = true ∨ lexLe b a = true := by
  induction a generalizing b with
  | nil => left; rfl
  | cons x xs ih =>
    cases b with
    | nil => right; rfl
    | cons y ys =>
      rcases Nat.lt_trichotomy x y with h | h | h
      · left
        simp [lexLe, h]
      · subst h
        rcases ih ys with h' | h'
        · left
          simp [lexLe, h']
        · right
          simp [lexLe, h']
      · right
        simp [lexLe, h]

theorem lexLe_trans {a b c : List Byte} (h1 : lexLe a b = true) (h2 : lexLe b c = true) :
    lexLe a c = true := by
  induction a generalizing b c with
  | nil => rfl
  | cons x xs ih =>
    cases b with
    | nil => exact absurd h1 (by simp [lexLe])
    | cons y ys =>
      cases c with
      | nil => exact absurd h2 (by simp [lexLe])
      | cons z zs =>
        simp only [lexLe, Bool.or_eq_true, Bool.and_eq_true, decide_eq_true_eq] at h1 h2 ⊢
        rcases h1 with h1 | ⟨he1, h1⟩
        · rcases h2 with h2 | ⟨he2, h2⟩
          · exact Or.inl (lt_trans h1 h2)
          · exact Or.inl (he2 ▸ h1)
        · rcases h2 with h2 | ⟨he2, h2⟩
          · exact Or.inl (he1 ▸ h2)
          · exact Or.inr ⟨he1.trans he2, ih h1 h2⟩

theorem mem_insertByKey (b p : Symbol × Sensor) (l : List (Symbol × Sensor)) :
    b ∈ insertByKey p l ↔ b = p ∨ b ∈ l := by
  induction l with
  | nil => simp [insertByKey]
  | cons q rest ih =>
    by_cases hle : lexLe p.1 q.1 = true
    · rw [insertByKey, if_pos hle]
      simp
    · rw [insertByKey, if_neg hle]
      simp only [List.mem_cons, ih]
      tauto

theorem sorted_insertByKey (p : Symbol × Sensor) (l : List (Symbol × Sensor))
    (h : l.Pairwise (fun a b => lexLe a.1 b.1 = true)) :
    (insertByKey p l).Pairwise (fun a b => lexLe a.1 b.1 = true) := by
  induction l with
  | nil => simp [insertByKey]
  | cons q rest ih =>
    rw [List.pairwise_cons] at h
    by_cases hle : lexLe p.1 q.1 = true
    · rw [insertByKey, if_pos hle, List.pairwise_cons]
      refine ⟨?_, List.pairwise_cons.mpr h⟩
      intro b hb
      rcases List.mem_cons.mp hb with rfl | hb
      · exact hle
      · exact lexLe_trans hle (h.1 b hb)
    · rw [insertByKey, if_neg hle, List.pairwise_cons]
      have hqp : lexLe q.1 p.1 = true := (lexLe_total p.1 q.1).resolve_left hle
      refine ⟨?_, ih h.2⟩
      intro b hb
      rcases (mem_insertByKey b p rest).mp hb with rfl | hb
      · exact hqp
      · exact h.1 b hb

theorem perm_insertByKey (p : Symbol × Sensor) (l : List (Symbol × Sensor)) :
    (insertByKey p l).Perm (p :: l) := by
  induction l with
  | nil => exact List.Perm.refl _
  | cons q rest ih =>
    by_cases hle : lexLe p.1 q.1 = true
    · rw [insertByKey, if_pos hle]
    · rw [insertByKey, if_neg hle]
      exact (ih.cons q).trans (List.Perm.swap p q rest)

theorem sortByKey_perm (l : List (Symbol × Sensor)) : (sortByKey l).Perm l := by
  induction l with
  | nil => exact List.Perm.refl _
  | cons p rest ih =>
    rw [sortByKey]
    exact (perm_insertByKey p (sortByKey rest)).trans (ih.cons p)

theorem sortByKey_sorted (l : List (Symbol × Sensor)) :
    (sortByKey l).Pairwise (fun a b => lexLe a.1 b.1 = true) := by
  induction l with
  | nil => simp [sortByKey]
  | cons p rest ih => exact sorted_insertByKey p (sortByKey rest) ih

theorem sensorsOf_ne_nil_iff (k : Symbol) (m : SMap) :
    sensorsOf k m ≠ [] ↔ k ∈ keysS m := by
  induction m with
  | nil => simp [sensorsOf, keysS]
  | cons p m ih =>
    rw [keysS_cons, List.mem_cons]
    by_cases hp : p.1 = k
    · have hstep : sensorsOf k (p :: m) = p.2 :: sensorsOf k m := by
        simp [sensorsOf, List.filter_cons, hp]
      simp [hstep, hp]
    · have hk : ¬k = p.1 := fun h => hp h.symm
      have hstep : sensorsOf k (p :: m) = sensorsOf k m := by
        simp [sensorsOf, List.filter_cons, hp]
      simp [hstep, hk, ih]

theorem applyMerges_isSome (o : Option Sensor) (l : List Sensor) :
    (applyMerges o l).isSome = true ↔ o.isSome = true ∨ l ≠ [] := by
  cases l with
  | nil => simp [applyMerges]
  | cons s ss =>
    cases o with
    | none => simp [applyMerges, applyMerges_some]
    | some t => simp [applyMerges, applyMerges_some]

theorem mem_keys_mergeFold (ms : List SMap) (k : Symbol) :
    k ∈ keysS (mergeFold ms) ↔ ∃ m ∈ ms, k ∈ keysS m := by
  rw [← lookup_isSome_iff, lookup_mergeFold]
  have step : ∀ (ms : List SMap) (o : Option Sensor),
      (ms.foldl (fun o m => applyMerges o (sensorsOf k m)) o).isSome = true ↔
        o.isSome = true ∨ ∃ m ∈ ms, k ∈ keysS m := by
    intro ms
    induction ms with
    | nil => intro o; simp
    | cons m ms ih =>
      intro o
      rw [List.foldl_cons, ih, applyMerges_isSome, sensorsOf_ne_nil_iff]
      simp only [List.mem_cons]
      constructor
      · rintro ((h | h) | ⟨m', hm', hk⟩)
        · exact Or.inl h
        · exact Or.inr ⟨m, Or.inl rfl, h⟩
        · exact Or.inr ⟨m', Or.inr hm', hk⟩
      · rintro (h | ⟨m', hm' | hm', hk⟩)
        · exact Or.inl (Or.inl h)
        · exact Or.inl (Or.inr (hm' ▸ hk))
        · exact Or.inr ⟨m', hm', hk⟩
  rw [step ms none]
  simp

/-- C7: `merge_results` returns a sequence that is strictly ascending by
byte-wise lexicographic key order (hence each key occurs exactly once), and
its key set is exactly the union of the input maps' key sets. -/
theorem claim7_merge_results_sorted (ms : List SMap) :
    (merge_results ms).Pairwise (fun p q => lexLe p.1 q.1 = true ∧ p.1 ≠ q.1) ∧
    ∀ k, k ∈ keysS (merge_results ms) ↔ ∃ m ∈ ms, k ∈ keysS m := by
  have hperm : (sortByKey (mergeFold ms)).Perm (mergeFold ms) := sortByKey_perm _
  have hkeysperm : (keysS (merge_results ms)).Perm (keysS (mergeFold ms)) :=
    hperm.map Prod.fst
  have hnd : (keysS (merge_results ms)).Nodup :=
    hkeysperm.nodup_iff.mpr (nodup_keys_mergeFold ms)
  constructor
  · have hs : (merge_results ms).Pairwise (fun a b => lexLe a.1 b.1 = true) :=
      sortByKey_sorted (mergeFold ms)
    have hne : (merge_results ms).Pairwise (fun a b => a.1 ≠ b.1) :=
      List.pairwise_map.mp hnd
    exact hs.and hne
  · intro k
    rw [hkeysperm.mem_iff, mem_keys_mergeFold]

/-! ## Concrete end-to-end computations -/

theorem fmt1_eval (q : ℚ) (n : ℕ) (h : round (10 * q) = (n : ℤ)) :
    fmt1 q = tenthsDigits n := by
  simp only [fmt1]
  rw [h, if_neg (by omega)]
  simp [Int.toNat_natCast]

theorem fmt1_one : fmt1 (1 : ℚ) = [49, 46, 48] := by
  rw [fmt1_eval 1 10 (by norm_num)]
  decide

theorem fmt1_two : fmt1 (2 : ℚ) = [50, 46, 48] := by
  rw [fmt1_eval 2 20 (by norm_num)]
  decide

theorem fmt1_three : fmt1 (3 : ℚ) = [51, 46, 48] := by
  rw [fmt1_eval 3 30 (by norm_num)]
  decide

theorem fmt1_five : fmt1 (5 : ℚ) = [53, 46, 48] := by
  rw [fmt1_eval 5 50 (by norm_num)]
  decide

theorem pv1 : parsedVal [49, 46, 48] = 1 := by
  rw [parsedVal,
    show parseF [49, 46, 48] = some 1 from by norm_num [parseF, isDigit, digitsToNat]]
  rfl

theorem pv2 : parsedVal [50, 46, 48] = 2 := by
  rw [parsedVal,
    show parseF [50, 46, 48] = some 2 from by norm_num [parseF, isDigit, digitsToNat]]
  rfl

theorem pv3 : parsedVal [51, 46, 48] = 3 := by
  rw [parsedVal,
    show parseF [51, 46, 48] = some 3 from by norm_num [parseF, isDigit, digitsToNat]]
  rfl

theorem pv5 : parsedVal [53, 46, 48] = 5 := by
  rw [parsedVal,
    show parseF [53, 46, 48] = some 5 from by norm_num [parseF, isDigit, digitsToNat]]
  rfl

theorem agg_example3 :
    aggRecs [([65], [49, 46, 48]), ([66], [50, 46, 48]), ([65], [51, 46, 48])] =
      [([65], ⟨1, 4, 2, 3⟩), ([66], ⟨2, 2, 1, 2⟩)] := by
  norm_num [aggRecs, stepRec, entryUpd, pv1, pv2, pv3, Sensor.new, Sensor.add_temp]

theorem process_chunk_example3 :
    process_chunk (strBytes "A;1.0\nB;2.0\nA;3.0\n") =
      some [([65], ⟨1, 4, 2, 3⟩), ([66], ⟨2, 2, 1, 2⟩)] := by
  rw [show strBytes "A;1.0\nB;2.0\nA;3.0\n" =
      chunkBytes [([65], [49, 46, 48]), ([66], [50, 46, 48]), ([65], [51, 46, 48])] from
      by decide,
    process_chunk_wf _ (by decide), agg_example3]

theorem write_results_example3 :
    write_results [([65], (⟨1, 4, 2, 3⟩ : Sensor)), ([66], ⟨2, 2, 1, 2⟩)] =
      some (strBytes "\x7bA=1.0/2.0/3.0, B=2.0/2.0/2.0\x7d") := by
  norm_num [write_results, renderEntry, List.enum, strBytes, fmt1_one, fmt1_two, fmt1_three]
  decide

theorem pipeline_some (data : List Byte) (nb : Nat) (chunks : List Chunk)
    (h : chunk_it data nb = some chunks) :
    pipeline data nb =
      match seqOption (chunks.map (fun c => process_chunk (sliceBytes data c))) with
      | none => none
      | some ms => write_results (merge_results ms) := by
  rw [pipeline, h]

theorem pipeline_example3 :
    pipeline (strBytes "A;1.0\nB;2.0\nA;3.0\n") 1 =
      some (strBytes "\x7bA=1.0/2.0/3.0, B=2.0/2.0/2.0\x7d") := by
  have hchunks : chunk_it (strBytes "A;1.0\nB;2.0\nA;3.0\n") 1 = some [⟨0, 18⟩] := by decide
  have hslice : sliceBytes (strBytes "A;1.0\nB;2.0\nA;3.0\n") ⟨0, 18⟩ =
      strBytes "A;1.0\nB;2.0\nA;3.0\n" := by decide
  rw [pipeline_some _ _ _ hchunks, List.map_cons, List.map_nil, hslice, process_chunk_example3]
  show write_results (merge_results [[([65], ⟨1, 4, 2, 3⟩), ([66], ⟨2, 2, 1, 2⟩)]]) = _
  rw [show merge_results [[([65], (⟨1, 4, 2, 3⟩ : Sensor)), ([66], ⟨2, 2, 1, 2⟩)]] =
      [([65], ⟨1, 4, 2, 3⟩), ([66], ⟨2, 2, 1, 2⟩)] from by decide]
  exact write_results_example3

/-- C3: aggregating `"A;1.0\nB;2.0\nA;3.0\n"` as one chunk yields exactly
`A ↦ {min 1, sum 4, count 2, max 3}` (so `avg = 2`) and
`B ↦ {min 2, sum 2, count 1, max 2}`, and the full pipeline renders exactly
`"{A=1.0/2.0/3.0, B=2.0/2.0/2.0}"`. -/
theorem claim3_end_to_end_example :
    process_chunk (strBytes "A;1.0\nB;2.0\nA;3.0\n") =
      some [([65], ⟨1, 4, 2, 3⟩), ([66], ⟨2, 2, 1, 2⟩)] ∧
    pipeline (strBytes "A;1.0\nB;2.0\nA;3.0\n") 1 =
      some (strBytes "\x7bA=1.0/2.0/3.0, B=2.0/2.0/2.0\x7d") :=
  ⟨process_chunk_example3, pipeline_example3⟩

theorem write_results_example2 :
    write_results [([65], Sensor.new 5)] = some (strBytes "\x7bA=5.0/5.0/5.0\x7d") := by
  norm_num [write_results, renderEntry, List.enum, strBytes, Sensor.new, fmt1_five]
  decide

theorem pipeline_missing_newline :
    pipeline (strBytes "A;5.0\nB;1.0") 2 = some (strBytes "\x7bA=5.0/5.0/5.0\x7d") := by
  have hchunks : chunk_it (strBytes "A;5.0\nB;1.0") 2 = some [⟨0, 6⟩, ⟨6, 11⟩] := by decide
  have hs1 : sliceBytes (strBytes "A;5.0\nB;1.0") ⟨0, 6⟩ =
      chunkBytes [([65], [53, 46, 48])] := by decide
  have hs2 : process_chunk (sliceBytes (strBytes "A;5.0\nB;1.0") ⟨6, 11⟩) = some [] := by
    decide
  have hagg : aggRecs [([65], [53, 46, 48])] = [([65], Sensor.new 5)] := by
    norm_num [aggRecs, stepRec, entryUpd, pv5]
  rw [pipeline_some _ _ _ hchunks, List.map_cons, List.map_cons, List.map_nil, hs1,
    process_chunk_wf _ (by decide), hagg, hs2]
  show write_results (merge_results [[([65], Sensor.new 5)], []]) = _
  rw [show merge_results [[([65], Sensor.new 5)], []] = [([65], Sensor.new 5)] from by decide]
  exact write_results_example2

/-- C2 (amended): on `"A;5.0\nB;1.0"` (no final newline) the Chunker does
force the last chunk's end to `eof`, but the pipeline does *not* include the
final record `B;1.0` in the output: the scanner only records a line when it
sees its terminating `\n`, so the truncated final line is silently dropped
(the known limitation of §4.3) and the rendered report is exactly
`"{A=5.0/5.0/5.0}"`. -/
theorem claim2_missing_newline_amended :
    chunk_it (strBytes "A;5.0\nB;1.0") 2 = some [⟨0, 6⟩, ⟨6, 11⟩] ∧
    pipeline (strBytes "A;5.0\nB;1.0") 2 = some (strBytes "\x7bA=5.0/5.0/5.0\x7d") :=
  ⟨by decide, pipeline_missing_newline⟩

/-- C2 counterexample: the pipeline output on `"A;5.0\nB;1.0"` exists but
contains no `B` byte at all, so the record `B;1.0` is not included in the
output as the claim demands. -/
theorem claim2_counterexample :
    (pipeline (strBytes "A;5.0\nB;1.0") 2).isSome = true ∧
    (66 : Byte) ∉ (pipeline (strBytes "A;5.0\nB;1.0") 2).getD [] := by
  rw [show (pipeline (strBytes "A;5.0\nB;1.0") 2) = some (strBytes "\x7bA=5.0/5.0/5.0\x7d") from
    pipeline_missing_newline]
  exact ⟨rfl, by decide⟩

/-- C10: the Reporter model fails on an empty sensor sequence — the
`sensors.len() - 1` subtraction underflows `usize`, a Rust arithmetic-overflow
program error, instead of producing the empty report — and succeeds on every
non-empty sequence. -/
theorem claim10_reporter_empty_underflow :
    write_results [] = none ∧
    ∀ l : List (Symbol × Sensor), l ≠ [] → (write_results l).isSome = true := by
  constructor
  · rfl
  · intro l hl
    rw [write_results, if_neg (fun h => hl (List.length_eq_zero.mp h))]
    rfl

/-- C10 witness at the singleton sensor list for key `A`. -/
theorem claim10_witness :
    ([([65], Sensor.new 1)] : List (Symbol × Sensor)) ≠ [] ∧
    (write_results [([65], Sensor.new 1)]).isSome = true :=
  ⟨by decide, claim10_reporter_empty_underflow.2 [([65], Sensor.new 1)] (by decide)⟩

end Chunkito
